import Mathlib

/-!
Verification of the cutelog log-ingestion, record-storage and filtering
pipeline: a shallow embedding of the relevant parts of
`cutelog/logger_tab.py`, `cutelog/listener.py` and `cutelog/log_levels.py`,
with theorems settling the specification's claims about them.
-/

namespace Cutelog

/-! ## Python value model

Payload mappings decoded from the wire are Python dicts whose values can be
strings, numbers (`int`/`float`, modelled as rationals), `None`, or anything
else (lists, dicts, bools, ...; modelled opaquely, since the code under
verification only ever distinguishes strings, `int`/`float` numbers and
`None`). -/

inductive PyVal where
  | vnone : PyVal
  | vstr : String → PyVal
  | vnum : ℚ → PyVal
  | vother : Nat → PyVal
deriving DecidableEq, Repr

/-- `type(v) in (int, float)`: true exactly for numeric values. -/
def PyVal.isNum : PyVal → Bool
  | PyVal.vnum _ => true
  | _ => false

/-- Python's `dict.get(k)`: the value stored at the first matching key, or
`None` when the key is missing.  Mappings are association lists with the
first binding of a key the authoritative one (Python dicts have unique
keys). -/
def dictGet (d : List (String × PyVal)) (k : String) : PyVal :=
  match d.find? (fun p => p.1 == k) with
  | some p => p.2
  | Option.none => PyVal.vnone

/-- The pattern `v = d.get(k1); if v is None: v = d.get(k2)` used three times
in `LogRecord.__init__`: fall back to the second key only when the first
lookup produced `None`. -/
def getWithFallback (d : List (String × PyVal)) (k1 k2 : String) : PyVal :=
  match dictGet d k1 with
  | PyVal.vnone => dictGet d k2
  | v => v

/-- `str.upper()` on the string's characters (ASCII uppercasing, as
`String.toUpper`; Python's Unicode uppercasing agrees on ASCII). -/
def pyStrUpper (s : String) : String :=
  String.mk (s.data.map Char.toUpper)

/-- `.upper()`: defined on strings only; calling it on any other value
raises `AttributeError` (modelled as `Option.none`). -/
def pyUpper : PyVal → Option String
  | PyVal.vstr s => some (pyStrUpper s)
  | _ => Option.none

/-! ## LogRecord (logger_tab.py, class LogRecord)

The normalized record built by `LogRecord.__init__` from a decoded payload
mapping.  `asctime` generation is omitted (pure display formatting, used by
no claim), as is the `__getattr__` fallback machinery, which is modelled by
explicit accessors into `logDict`. -/

structure LogRecord where
  message : PyVal
  levelname : Option String
  created : ℚ
  logDict : List (String × PyVal)
deriving DecidableEq, Repr

/-- `record.name`: the attribute is never set in `__dict__`, so
`__getattr__` falls back to `self._logDict.get("name")`. -/
def LogRecord.loggerName (r : LogRecord) : PyVal :=
  dictGet r.logDict "name"

/-- `LogRecord.__init__(logDict)` with `now` the ingestion-time timestamp
(`datetime.now().timestamp()`).

* `message` := `logDict.get("message")`, falling back to `"msg"`;
* `levelname` := `logDict.get("levelname")`, falling back to `"level"`,
  then upper-cased when not `None` (a non-string raises, so the whole
  constructor fails: `Option.none`);
* `created` := `logDict.get("created")`, falling back to `"time"` only when
  `"created"` gave `None`; then replaced by `now` when the result is `None`
  or not of type `int`/`float`. -/
def mkLogRecord (logDict : List (String × PyVal)) (now : ℚ) : Option LogRecord :=
  let message := getWithFallback logDict "message" "msg"
  let ln0 := getWithFallback logDict "levelname" "level"
  let created0 := getWithFallback logDict "created" "time"
  let created : ℚ :=
    match created0 with
    | PyVal.vnum q => q
    | _ => now
  match ln0 with
  | PyVal.vnone => some ⟨message, Option.none, created, logDict⟩
  | v =>
    match pyUpper v with
    | some s => some ⟨message, some s, created, logDict⟩
    | Option.none => Option.none

/-- The mapping of the claim's concrete example:
`{"msg": "hello", "level": "warn", "time": 1000.5}`. -/
def c1ExampleMap : List (String × PyVal) :=
  [("msg", PyVal.vstr "hello"), ("level", PyVal.vstr "warn"),
   ("time", PyVal.vnum 1000.5)]

/-- C1, counterexample.  The claim reads `created` as
"`mapping["created"]` if present and numeric, **else** `mapping["time"]` if
present and numeric, else now", i.e. a non-numeric `"created"` should fall
back to a numeric `"time"`.  The code only consults `"time"` when
`"created"` is absent (`None`): on
`{"created": "x", "time": 1000.5}` with ingestion time `0` it produces
`created = 0` (now), not `1000.5`. -/
theorem C1_counterexample :
    ∃ r : LogRecord,
      mkLogRecord [("created", PyVal.vstr "x"), ("time", PyVal.vnum 1000.5)] 0
        = some r ∧ r.created = 0 ∧ ¬ r.created = 1000.5 := by
  refine ⟨⟨PyVal.vnone, Option.none, 0,
    [("created", PyVal.vstr "x"), ("time", PyVal.vnum 1000.5)]⟩, rfl, rfl, by norm_num⟩

/-- Characterization of a successful `mkLogRecord`: the record's fields in
terms of the mapping's lookups. -/
theorem mkLogRecord_some (d : List (String × PyVal)) (now : ℚ) (r : LogRecord)
    (h : mkLogRecord d now = some r) :
    r = ⟨getWithFallback d "message" "msg",
         (match getWithFallback d "levelname" "level" with
          | PyVal.vstr s => some (pyStrUpper s)
          | _ => Option.none),
         (match getWithFallback d "created" "time" with
          | PyVal.vnum q => q
          | _ => now),
         d⟩ := by
  unfold mkLogRecord at h
  rcases hln : getWithFallback d "levelname" "level" with _ | s | q | t <;>
    rw [hln] at h <;> simp only [pyUpper] at h <;>
    first
      | (cases h; rfl)
      | cases h

/-- C1 (amended): for every decoded payload mapping, the record built from it
has `message = mapping["message"]` if present else `mapping["msg"]`;
`level_name` the upper-cased `mapping["levelname"]` if present else
`mapping["level"]` (absent if neither is present); and `created` equal to
`mapping["created"]` if present and numeric, ingestion-time now if
`mapping["created"]` is present but non-numeric, else `mapping["time"]` if
present and numeric, else now.  In particular the mapping
`{"msg": "hello", "level": "warn", "time": 1000.5}` yields
`message = "hello"`, `level_name = "WARN"`, `created = 1000.5`. -/
theorem C1_record_normalization (d : List (String × PyVal)) (now : ℚ)
    (r : LogRecord) (h : mkLogRecord d now = some r) :
    r.message = getWithFallback d "message" "msg" ∧
    (∀ s : String, getWithFallback d "levelname" "level" = PyVal.vstr s →
      r.levelname = some (pyStrUpper s)) ∧
    (getWithFallback d "levelname" "level" = PyVal.vnone →
      r.levelname = Option.none) ∧
    (∀ q : ℚ, dictGet d "created" = PyVal.vnum q → r.created = q) ∧
    (dictGet d "created" ≠ PyVal.vnone → (dictGet d "created").isNum = false →
      r.created = now) ∧
    (dictGet d "created" = PyVal.vnone →
      ∀ q : ℚ, dictGet d "time" = PyVal.vnum q → r.created = q) ∧
    (dictGet d "created" = PyVal.vnone → (dictGet d "time").isNum = false →
      r.created = now) ∧
    (∃ r0 : LogRecord, mkLogRecord c1ExampleMap now = some r0 ∧
      r0.message = PyVal.vstr "hello" ∧ r0.levelname = some "WARN" ∧
      r0.created = 1000.5) := by
  have hex : mkLogRecord c1ExampleMap now =
      some ⟨PyVal.vstr "hello", some "WARN", 1000.5, c1ExampleMap⟩ := by
    have hup : pyStrUpper "warn" = "WARN" := by decide
    simp [mkLogRecord, c1ExampleMap, getWithFallback, dictGet, pyUpper, hup]
  obtain rfl := mkLogRecord_some d now r h
  refine ⟨rfl, ?_, ?_, ?_, ?_, ?_, ?_,
    ⟨⟨PyVal.vstr "hello", some "WARN", 1000.5, c1ExampleMap⟩, hex, rfl, rfl, rfl⟩⟩
  · intro s hs
    simp only [hs]
  · intro h0
    simp only [h0]
  · intro q hq
    simp only [getWithFallback, hq]
  · intro hne hnum
    rcases hc : dictGet d "created" with _ | s | q | t <;>
      simp_all [getWithFallback, PyVal.isNum]
  · intro hc q ht
    simp only [getWithFallback, hc, ht]
  · intro hc hnum
    rcases ht : dictGet d "time" with _ | s | q | t <;>
      simp_all [getWithFallback, PyVal.isNum]

/-- C1, witness: the amended theorem instantiated at the claim's example
mapping with ingestion time `0`. -/
theorem C1_record_normalization_witness :
    ∃ r0 : LogRecord, mkLogRecord c1ExampleMap 0 = some r0 ∧
      r0.message = PyVal.vstr "hello" ∧ r0.levelname = some "WARN" ∧
      r0.created = 1000.5 :=
  (C1_record_normalization c1ExampleMap 0
    ⟨PyVal.vstr "hello", some "WARN", 1000.5, c1ExampleMap⟩
    (by
      have hup : pyStrUpper "warn" = "WARN" := by decide
      simp [mkLogRecord, c1ExampleMap, getWithFallback, dictGet, pyUpper,
        hup])).2.2.2.2.2.2.2

/-! ## Namespace filter (logger_tab.py, RecordFilter.filterAcceptsRow)

The namespace component of `filterAcceptsRow` (lines 371-396): a loop over
the set of selected tree nodes, identified here by their `path` strings
(`TreeNode.path`; the root's path is `""`).  `name` is the record's logger
name: `None` for the synthetic connection-closed marker, a string
otherwise. -/

/-- The `for node in selected_nodes` loop, with `result` the Python local of
the same name.  Each iteration either breaks out with `True` or assigns
`result` and continues; iterating a set is modelled as iterating a list (the
result is proved order-independent below). -/
def filterLoop (includeChildren : Bool) (name : Option String) :
    List String → Bool → Bool
  | [], result => result
  | path :: rest, _ =>
    if path = "" then true
    else
      match name with
      | Option.none => filterLoop includeChildren name rest false
      | some n =>
        if n = path then true
        else if includeChildren = false ∧ n = path then true
        else if includeChildren = true ∧ String.isPrefixOf (path ++ ".") n then
          true
        else filterLoop includeChildren name rest false

/-- The namespace predicate of `filterAcceptsRow`: `result` starts out
`True`, an empty selection accepts everything, otherwise the loop decides. -/
def filterAcceptsNamespace (includeChildren : Bool) (selected : List String)
    (name : Option String) : Bool :=
  if selected.isEmpty then true
  else filterLoop includeChildren name selected true

/-- Whether a single selected node lets the record through: root path, exact
match, or (in include-children mode) dotted-prefix match. -/
def nodeMatches (includeChildren : Bool) (name : Option String)
    (path : String) : Bool :=
  if path = "" then true
  else
    match name with
    | Option.none => false
    | some n =>
      if n = path then true
      else if includeChildren = true ∧ String.isPrefixOf (path ++ ".") n then
        true
      else false

/-- The loop is an existential scan: on a nonempty selection its result is
independent of the running `result` value. -/
theorem filterLoop_eq_any (includeChildren : Bool) (name : Option String) :
    ∀ (l : List String) (acc : Bool),
      filterLoop includeChildren name l acc =
        (l.any (nodeMatches includeChildren name) || (l.isEmpty && acc)) := by
  intro l
  induction l with
  | nil => intro acc; simp [filterLoop]
  | cons path rest ih =>
    intro acc
    by_cases hroot : path = ""
    · simp [filterLoop, nodeMatches, hroot]
    · cases name with
      | none => simp [filterLoop, nodeMatches, hroot, ih]
      | some n =>
        by_cases hexact : n = path
        · simp [filterLoop, nodeMatches, hroot, hexact]
        · by_cases hpre :
            includeChildren = true ∧ String.isPrefixOf (path ++ ".") n
          · simp [filterLoop, nodeMatches, hroot, hexact, hpre]
          · simp [filterLoop, nodeMatches, hroot, hexact, hpre, ih]

/-- C2: the namespace filter passes a record iff the selection is empty, or
the root node (path `""`) is selected, or the record's logger name exactly
equals some selected node's path, or include-children mode is on and the
logger name starts with a selected path followed by `"."`; and a record with
no logger name (the synthetic connection-closed marker) fails whenever the
selection is non-empty and does not include the root. -/
theorem C2_namespace_filter (includeChildren : Bool) (selected : List String)
    (name : Option String) :
    (filterAcceptsNamespace includeChildren selected name = true ↔
      selected = [] ∨ "" ∈ selected ∨
        ∃ p ∈ selected, ∃ n : String, name = some n ∧
          (n = p ∨ includeChildren = true ∧
            String.isPrefixOf (p ++ ".") n = true)) ∧
    (name = Option.none → selected ≠ [] → "" ∉ selected →
      filterAcceptsNamespace includeChildren selected name = false) := by
  have hnode : ∀ p : String, nodeMatches includeChildren name p = true ↔
      p = "" ∨ ∃ n : String, name = some n ∧
        (n = p ∨ includeChildren = true ∧
          String.isPrefixOf (p ++ ".") n = true) := by
    intro p
    unfold nodeMatches
    cases name with
    | none => split_ifs with h1 <;> simp [h1]
    | some n =>
      split_ifs with h1 _ _ <;> simp_all
  have hiff : filterAcceptsNamespace includeChildren selected name = true ↔
      selected = [] ∨ "" ∈ selected ∨
        ∃ p ∈ selected, ∃ n : String, name = some n ∧
          (n = p ∨ includeChildren = true ∧
            String.isPrefixOf (p ++ ".") n = true) := by
    unfold filterAcceptsNamespace
    cases hsel : selected.isEmpty with
    | true =>
      have hnil : selected = [] := by
        cases selected
        · rfl
        · simp [List.isEmpty] at hsel
      simp [hnil]
    | false =>
      have hne : selected ≠ [] := by
        intro h
        rw [h] at hsel
        simp [List.isEmpty] at hsel
      rw [if_neg Bool.false_ne_true, filterLoop_eq_any]
      simp only [hsel, Bool.false_and, Bool.or_false, List.any_eq_true]
      constructor
      · rintro ⟨p, hp, hmatch⟩
        rcases (hnode p).mp hmatch with hroot | ⟨n, hn, hcase⟩
        · exact Or.inr (Or.inl (hroot ▸ hp))
        · exact Or.inr (Or.inr ⟨p, hp, n, hn, hcase⟩)
      · rintro (hempty | hroot | ⟨p, hp, n, hn, hcase⟩)
        · exact absurd hempty hne
        · exact ⟨"", hroot, (hnode "").mpr (Or.inl rfl)⟩
        · exact ⟨p, hp, (hnode p).mpr (Or.inr ⟨n, hn, hcase⟩)⟩
  refine ⟨hiff, ?_⟩
  intro hnone hne hroot
  subst hnone
  rcases h : filterAcceptsNamespace includeChildren selected Option.none with _ | _
  · rfl
  · exfalso
    rcases hiff.mp h with h1 | h2 | ⟨p, hp, n, hn, _⟩
    · exact hne h1
    · exact hroot h2
    · cases hn

/-! ## Record store (logger_tab.py, LogRecordModel)

`self.records` is a deque holding the records in arrival order; the store
operations never inspect the records, so they are embedded generically.
`beginInsertRows`/`beginRemoveRows` and the other Qt signalling calls are
view bookkeeping with no effect on the stored sequence. -/

/-- The `while len(self.records) >= self.max_capacity: self.records.popleft()`
loop of `trim_if_needed`: pop from the front while the length is still at or
above `cap`.  (Only ever entered with `cap > 0`, as `trim_if_needed` returns
early when `max_capacity == 0`.) -/
def popWhileGE {α : Type} (cap : Nat) : List α → List α
  | [] => []
  | r :: rest =>
    if rest.length + 1 ≥ cap then popWhileGE cap rest else r :: rest

/-- `LogRecordModel.trim_if_needed`: nothing to do when capacity is zero
(unbounded) or the store is empty; otherwise, when the size has reached the
capacity, evict oldest records while the size is still `≥` capacity. -/
def trimIfNeeded {α : Type} (maxCapacity : Nat) (records : List α) : List α :=
  if maxCapacity = 0 ∨ records.length = 0 then records
  else if records.length ≥ maxCapacity then popWhileGE maxCapacity records
  else records

/-- `LogRecordModel.add_record` (with `internal=False`, the only way records
reach the store from `on_record`): trim if needed, then append at the back. -/
def addRecord {α : Type} (maxCapacity : Nat) (records : List α) (r : α) :
    List α :=
  trimIfNeeded maxCapacity records ++ [r]

/-- `LogRecordModel.trim_except_last_n`: `start = len(records) - n` as a
(possibly negative) Python int; return unchanged when negative, else keep
`islice(records, start, None)`, i.e. drop the first `start` records. -/
def trimExceptLastN {α : Type} (n : Nat) (records : List α) : List α :=
  let start : Int := (records.length : Int) - (n : Int)
  if start < 0 then records
  else records.drop start.toNat

/-- `LoggerTab.set_max_capacity`: store the new capacity on the model and
immediately `trim_if_needed`. -/
def setMaxCapacity {α : Type} (maxCapacity : Nat) (records : List α) :
    Nat × List α :=
  (maxCapacity, trimIfNeeded maxCapacity records)

theorem popWhileGE_eq_drop {α : Type} (cap : Nat) :
    ∀ l : List α, popWhileGE cap l = l.drop (l.length + 1 - cap) := by
  intro l
  induction l with
  | nil => simp [popWhileGE]
  | cons r rest ih =>
    unfold popWhileGE
    by_cases h : rest.length + 1 ≥ cap
    · rw [if_pos h, ih]
      have : (r :: rest).length + 1 - cap = (rest.length + 1 - cap) + 1 := by
        simp only [List.length_cons]
        omega
      rw [this, List.drop_succ_cons]
    · rw [if_neg h]
      have : (r :: rest).length + 1 - cap = 0 := by
        simp only [List.length_cons]
        omega
      rw [this, List.drop_zero]

theorem trimIfNeeded_eq_drop {α : Type} (cap : Nat) (l : List α)
    (hcap : 0 < cap) : trimIfNeeded cap l = l.drop (l.length + 1 - cap) := by
  unfold trimIfNeeded
  rcases l with _ | ⟨r, rest⟩
  · simp
  · have h1 : ¬ (cap = 0 ∨ (r :: rest).length = 0) := by
      simp only [List.length_cons]
      omega
    rw [if_neg h1]
    by_cases h : (r :: rest).length ≥ cap
    · rw [if_pos h, popWhileGE_eq_drop]
    · rw [if_neg h]
      have : (r :: rest).length + 1 - cap = 0 := by
        simp only [List.length_cons] at h ⊢
        omega
      rw [this, List.drop_zero]

theorem foldl_addRecord_eq_drop {α : Type} (k : Nat) (hk : 0 < k)
    (rs : List α) : rs.foldl (addRecord k) [] = rs.drop (rs.length - k) := by
  induction rs using List.reverseRecOn with
  | nil => simp
  | append_singleton rs r ih =>
    rw [List.foldl_append, List.foldl_cons, List.foldl_nil, ih]
    unfold addRecord
    rw [trimIfNeeded_eq_drop _ _ hk]
    by_cases h : k ≤ rs.length
    · have hlen : (rs.drop (rs.length - k)).length = k := by
        rw [List.length_drop]
        omega
      rw [hlen, List.drop_drop]
      have h1 : (rs ++ [r]).length - k = rs.length - k + (k + 1 - k) := by
        simp only [List.length_append, List.length_cons, List.length_nil]
        omega
      rw [h1, List.drop_append_of_le_length (by omega)]
    · have h0 : rs.length - k = 0 := by omega
      have hlen : (rs.drop (rs.length - k)).length = rs.length := by
        rw [h0, List.drop_zero]
      rw [h0, List.drop_zero] at *
      have h1 : rs.length + 1 - k = 0 := by omega
      have h2 : (rs ++ [r]).length - k = 0 := by
        simp only [List.length_append, List.length_cons, List.length_nil]
        omega
      rw [h1, h2, List.drop_zero, List.drop_zero]

theorem foldl_addRecord_unbounded {α : Type} (rs : List α) :
    rs.foldl (addRecord 0) [] = rs := by
  have haux : ∀ (l acc : List α), l.foldl (addRecord 0) acc = acc ++ l := by
    intro l
    induction l with
    | nil => simp
    | cons r rest ih =>
      intro acc
      rw [List.foldl_cons, ih]
      unfold addRecord trimIfNeeded
      simp
  simpa using haux rs []

/-- C3: inserting `N` records one at a time through `add_record` into a
store with `max_capacity = k`, `0 < k < N`, leaves exactly the last `k`
records inserted, in their original relative order; capacity `0` means
unbounded (no eviction ever). -/
theorem C3_capacity_eviction {α : Type} (rs : List α) (k : Nat) :
    (0 < k → k < rs.length →
      rs.foldl (addRecord k) [] = rs.drop (rs.length - k) ∧
      (rs.foldl (addRecord k) []).length = k) ∧
    rs.foldl (addRecord 0) [] = rs := by
  refine ⟨?_, foldl_addRecord_unbounded rs⟩
  intro hk hlt
  refine ⟨foldl_addRecord_eq_drop k hk rs, ?_⟩
  rw [foldl_addRecord_eq_drop k hk rs, List.length_drop]
  omega

/-- C8: `trim_except_last_n n` keeps exactly the newest `n` records in their
original relative order when `n` is below the current size (always equal to
dropping all but the last `n`), and is a no-op when `n ≥` the current
size. -/
theorem C8_trim_except_last_n {α : Type} (n : Nat) (l : List α) :
    trimExceptLastN n l = l.drop (l.length - n) ∧
    (l.length ≤ n → trimExceptLastN n l = l) ∧
    (n ≤ l.length → (trimExceptLastN n l).length = n) := by
  have heq : trimExceptLastN n l = l.drop (l.length - n) := by
    unfold trimExceptLastN
    by_cases h : (l.length : Int) - (n : Int) < 0
    · rw [if_pos h]
      have : l.length - n = 0 := by omega
      rw [this, List.drop_zero]
    · rw [if_neg h]
      congr 1
      omega
  refine ⟨heq, ?_, ?_⟩
  · intro h
    rw [heq]
    have : l.length - n = 0 := by omega
    rw [this, List.drop_zero]
  · intro h
    rw [heq, List.length_drop]
    omega

/-- C8 example on a 10-record store, instantiating `C8_trim_except_last_n`:
`trim_except_last_n(3)` keeps 0-indexed positions 7, 8, 9 and
`trim_except_last_n(20)` is a no-op. -/
theorem C8_trim_except_last_n_example :
    trimExceptLastN 3 [0, 1, 2, 3, 4, 5, 6, 7, 8, 9] = [7, 8, 9] ∧
    trimExceptLastN 20 [0, 1, 2, 3, 4, 5, 6, 7, 8, 9]
      = [0, 1, 2, 3, 4, 5, 6, 7, 8, 9] := by
  constructor
  · rw [(C8_trim_except_last_n 3 [0, 1, 2, 3, 4, 5, 6, 7, 8, 9]).1]
    rfl
  · exact (C8_trim_except_last_n 20 [0, 1, 2, 3, 4, 5, 6, 7, 8, 9]).2.1
      (by norm_num)

/-- C10: `set_max_capacity n` on a store of size `s` with `0 < n ≤ s` trims
immediately to exactly the `n - 1` newest records (one below the new
capacity, because eviction pops while size `≥` capacity), in original
relative order; with `n > s` or `n = 0` the contents are unchanged. -/
theorem C10_set_max_capacity {α : Type} (n : Nat) (l : List α) :
    (0 < n → n ≤ l.length →
      (setMaxCapacity n l).2 = l.drop (l.length + 1 - n) ∧
      ((setMaxCapacity n l).2).length = n - 1) ∧
    (l.length < n ∨ n = 0 → (setMaxCapacity n l).2 = l) := by
  constructor
  · intro hn hle
    have heq : (setMaxCapacity n l).2 = l.drop (l.length + 1 - n) :=
      trimIfNeeded_eq_drop n l hn
    refine ⟨heq, ?_⟩
    rw [heq, List.length_drop]
    omega
  · rintro (h | h)
    · unfold setMaxCapacity trimIfNeeded
      rcases l with _ | ⟨r, rest⟩
      · simp
      · have h1 : ¬ (n = 0 ∨ (r :: rest).length = 0) := by
          simp only [List.length_cons] at h ⊢
          omega
        have h2 : ¬ ((r :: rest).length ≥ n) := by omega
        rw [if_neg h1, if_neg h2]
    · subst h
      unfold setMaxCapacity trimIfNeeded
      simp

/-- C3, witness: five records into a store of capacity 2 keep the last two;
unbounded keeps all five. -/
theorem C3_capacity_eviction_witness :
    [0, 1, 2, 3, 4].foldl (addRecord 2) [] = [3, 4] ∧
    [0, 1, 2, 3, 4].foldl (addRecord 0) [] = [0, 1, 2, 3, 4] := by
  have h := C3_capacity_eviction [0, 1, 2, 3, 4] 2
  refine ⟨((h.1 (by norm_num) (by norm_num)).1).trans rfl, h.2⟩

/-- C10, witness: capacity 3 on a 5-record store keeps the 2 newest; capacity
7 and capacity 0 leave a 5-record store unchanged. -/
theorem C10_set_max_capacity_witness :
    (setMaxCapacity 3 [0, 1, 2, 3, 4]).2 = [3, 4] ∧
    (setMaxCapacity 7 [0, 1, 2, 3, 4]).2 = [0, 1, 2, 3, 4] ∧
    (setMaxCapacity 0 [0, 1, 2, 3, 4]).2 = [0, 1, 2, 3, 4] := by
  refine ⟨((C10_set_max_capacity 3 [0, 1, 2, 3, 4]).1 (by norm_num)
      (by norm_num)).1.trans rfl,
    (C10_set_max_capacity 7 [0, 1, 2, 3, 4]).2 (Or.inl (by norm_num)),
    (C10_set_max_capacity 0 [0, 1, 2, 3, 4]).2 (Or.inr rfl)⟩

/-! ## Wire framing (listener.py, LogConnection.run / wait_and_read) -/

/-- `wait_and_read(n_bytes)`: accumulates reads until exactly `n_bytes`
bytes are available and returns them together with the rest of the stream;
returns `None` when the socket closes (or cancellation fires) first —
modelled as the stream holding fewer than `n` bytes. -/
def waitAndRead (n : Nat) (stream : List Nat) :
    Option (List Nat × List Nat) :=
  if stream.length < n then Option.none
  else some (stream.take n, stream.drop n)

/-- `struct.unpack(">L", bs)[0]` on a 4-byte string: big-endian base 256. -/
def decodeBE4 (bs : List Nat) : Nat :=
  bs.foldl (fun acc b => acc * 256 + b) 0

/-- The 4-byte big-endian encoding of a length `n < 2^32`: the length
prefix the wire protocol (spec §6) puts before each payload
(`struct.pack(">L", n)` on the client side). -/
def encodeBE4 (n : Nat) : List Nat :=
  [n / 16777216 % 256, n / 65536 % 256, n / 256 % 256, n % 256]

/-- A frame as the claim describes it: the 4-byte big-endian length prefix
followed by the payload bytes. -/
def encodeFrame (payload : List Nat) : List Nat :=
  encodeBE4 payload.length ++ payload

/-- One iteration of the `while True` read loop in `LogConnection.run`:
read 4 bytes (`if not read_len: break` — only `None` is falsy here, a
4-byte string never is), unpack the length, read that many payload bytes;
`if not data: break` stops both on `None` (socket closed) and on an empty
payload `b""`, which is falsy.  Returns the payload handed on to the codec
together with the remaining stream, or `none` when the loop breaks. -/
def runReadFrame (stream : List Nat) : Option (List Nat × List Nat) :=
  match waitAndRead 4 stream with
  | Option.none => Option.none
  | some (lenBytes, rest) =>
    match waitAndRead (decodeBE4 lenBytes) rest with
    | Option.none => Option.none
    | some (payload, rest2) =>
      if payload.length = 0 then Option.none
      else some (payload, rest2)

/-- C4, counterexample: the empty payload (`len(P) = 0 < 2^32`) encodes to
the frame `b"\x00\x00\x00\x00"`, on which the read loop breaks
(`if not data: break`, since `b""` is falsy) instead of handing `b""` to
the codec and continuing. -/
theorem C4_counterexample :
    encodeFrame ([] : List Nat) = [0, 0, 0, 0] ∧
    ([] : List Nat).length < 2 ^ 32 ∧
    runReadFrame (encodeFrame ([] : List Nat)) = Option.none := by
  refine ⟨rfl, by norm_num, rfl⟩

theorem decodeBE4_encodeBE4 (n : Nat) (h : n < 2 ^ 32) :
    decodeBE4 (encodeBE4 n) = n := by
  simp only [decodeBE4, encodeBE4, List.foldl_cons, List.foldl_nil]
  omega

/-- C4 (amended): for every *non-empty* payload byte string `P` with
`len(P) < 2^32`, encoding `P` as a 4-byte big-endian length prefix followed
by `P` and feeding that stream to the connection read loop yields back
exactly `P` as the frame handed to the codec, and the loop continues on the
remaining stream (so the next frame is read next).  For the empty payload
the loop instead breaks (see the counterexample). -/
theorem C4_framing_roundtrip (P rest : List Nat) (hne : P ≠ [])
    (hlen : P.length < 2 ^ 32) :
    runReadFrame (encodeFrame P ++ rest) = some (P, rest) := by
  have hlen4 : (encodeBE4 P.length).length = 4 := rfl
  have h1 : waitAndRead 4 (encodeFrame P ++ rest)
      = some (encodeBE4 P.length, P ++ rest) := by
    unfold waitAndRead encodeFrame
    rw [List.append_assoc, if_neg (by simp [hlen4]), ← hlen4,
      List.take_left, List.drop_left]
  have h2 : waitAndRead (decodeBE4 (encodeBE4 P.length)) (P ++ rest)
      = some (P, rest) := by
    rw [decodeBE4_encodeBE4 P.length hlen]
    unfold waitAndRead
    rw [if_neg (by rw [List.length_append]; omega),
      List.take_left, List.drop_left]
  have h3 : ¬ P.length = 0 := by simpa using hne
  simp [runReadFrame, h1, h2, h3]

/-- C4, witness: the frame for payload `[7, 8, 9]` followed by another
frame's bytes round-trips and leaves that second frame in the stream. -/
theorem C4_framing_roundtrip_witness :
    runReadFrame (encodeFrame [7, 8, 9] ++ [0, 0, 0, 1, 5])
      = some ([7, 8, 9], [0, 0, 0, 1, 5]) :=
  C4_framing_roundtrip [7, 8, 9] [0, 0, 0, 1, 5] (by simp) (by norm_num)

/-! ## Level filter (log_levels.py, LevelFilter.__contains__)

The presentation fields of `LogLevel` (colors, styles) play no part in
filtering and are omitted; `enabled` is the field the filter reads. -/

structure LogLevel where
  levelname : String
  enabled : Bool
deriving DecidableEq, Repr

/-- `self.levels.get(levelname)`: the levels registry is a Python dict from
level name to `LogLevel`. -/
def levelsGet (levels : List (String × LogLevel)) (k : String) :
    Option LogLevel :=
  (levels.find? (fun p => p.1 == k)).map (fun p => p.2)

/-- `LevelFilter.__contains__(levelname)`: `None` always passes; otherwise
look the name up and pass iff a level was found and it is enabled (a
`LogLevel` object is always truthy, so `if level and level.enabled` is
exactly "found and enabled"). -/
def levelFilterContains (levels : List (String × LogLevel))
    (levelname : Option String) : Bool :=
  match levelname with
  | Option.none => true
  | some ln =>
    match levelsGet levels ln with
    | some level => level.enabled
    | Option.none => false

/-- C5: a record passes the level filter iff its level name resolves to an
enabled level in the registry, or the record has no level name; in
particular a record with `levelname = None` always passes and a record
whose level is registered but disabled always fails. -/
theorem C5_level_filter (levels : List (String × LogLevel))
    (ln : Option String) :
    (levelFilterContains levels ln = true ↔
      ln = Option.none ∨ ∃ n : String, ln = some n ∧
        ∃ level : LogLevel, levelsGet levels n = some level ∧
          level.enabled = true) ∧
    levelFilterContains levels Option.none = true ∧
    (∀ (n : String) (level : LogLevel), ln = some n →
      levelsGet levels n = some level → level.enabled = false →
      levelFilterContains levels ln = false) := by
  refine ⟨?_, rfl, ?_⟩
  · cases ln with
    | none => simp [levelFilterContains]
    | some n =>
      unfold levelFilterContains
      cases hfind : levelsGet levels n with
      | none => simp [hfind]
      | some level => simp [hfind]
  · intro n level hn hfind hdis
    subst hn
    simp [levelFilterContains, hfind, hdis]

/-! ## Merge by timestamp (logger_tab.py, LogRecordModel.merge_with_records)

`sorted(chain(self.records, new_records), key=attrgetter("created"))`:
Python's `sorted` is a stable sort, so any stable sorting algorithm gives
the same list; Timsort is embedded as insertion sort, whose stability is
proved below (per-timestamp filters are preserved). -/

/-- The order `key=attrgetter("created")` sorts by. -/
def createdLE (a b : LogRecord) : Prop :=
  a.created ≤ b.created

instance : DecidableRel createdLE := fun a b =>
  inferInstanceAs (Decidable (a.created ≤ b.created))

instance : IsTotal LogRecord createdLE :=
  ⟨fun a b => le_total a.created b.created⟩

instance : IsTrans LogRecord createdLE :=
  ⟨fun _ _ _ h1 h2 => le_trans h1 h2⟩

/-- `merge_with_records(new_records)`: the store's contents are replaced by
the stable sort, by ascending `created`, of the current records followed by
the merged-in records. -/
def mergeWithRecords (records newRecords : List LogRecord) :
    List LogRecord :=
  List.insertionSort createdLE (records ++ newRecords)

theorem filter_orderedInsert_created_ne (t : ℚ) (a : LogRecord)
    (ha : ¬ a.created = t) :
    ∀ l : List LogRecord,
      (List.orderedInsert createdLE a l).filter
          (fun r => decide (r.created = t))
        = l.filter (fun r => decide (r.created = t)) := by
  intro l
  induction l with
  | nil => simp [List.orderedInsert, ha]
  | cons b l ih =>
    unfold List.orderedInsert
    by_cases hle : createdLE a b
    · rw [if_pos hle]
      simp [ha]
    · rw [if_neg hle]
      simp only [List.filter_cons, ih]

theorem filter_orderedInsert_created_eq (t : ℚ) (a : LogRecord)
    (ha : a.created = t) :
    ∀ l : List LogRecord,
      (List.orderedInsert createdLE a l).filter
          (fun r => decide (r.created = t))
        = a :: l.filter (fun r => decide (r.created = t)) := by
  intro l
  induction l with
  | nil => simp [List.orderedInsert, ha]
  | cons b l ih =>
    unfold List.orderedInsert
    by_cases hle : createdLE a b
    · rw [if_pos hle]
      simp [ha]
    · rw [if_neg hle]
      have hb : ¬ b.created = t := by
        intro hbt
        exact hle (show createdLE a b from le_of_eq (ha.trans hbt.symm))
      simp only [List.filter_cons, ih]
      simp [hb]

/-- Stability of the embedded sort: for every timestamp `t`, the records
with `created = t` appear in the sorted output exactly as they appear in
the input. -/
theorem filter_insertionSort_created (t : ℚ) (l : List LogRecord) :
    (List.insertionSort createdLE l).filter (fun r => decide (r.created = t))
      = l.filter (fun r => decide (r.created = t)) := by
  induction l with
  | nil => rfl
  | cons a l ih =>
    show (List.orderedInsert createdLE a (List.insertionSort createdLE l)).filter
        (fun r => decide (r.created = t))
      = (a :: l).filter (fun r => decide (r.created = t))
    by_cases ha : a.created = t
    · rw [filter_orderedInsert_created_eq t a ha, ih]
      simp [ha]
    · rw [filter_orderedInsert_created_ne t a ha, ih]
      simp [ha]

/-- A record carrying only a `created` timestamp, for the claim's example. -/
def mkTimed (t : ℚ) : LogRecord :=
  ⟨PyVal.vnone, Option.none, t, []⟩

/-- C6: `merge_with_records` replaces the destination store's contents with
the stable merge of both sequences ordered by ascending `created`: the
result is a permutation of destination ++ merged-in, sorted by `created`,
and ties keep original relative order (destination records before merged-in
records at equal timestamps — for each timestamp `t` the sub-sequence of
records at `t` is exactly that of destination ++ merged-in).  Merging
records at t = [1, 3, 5] with records at t = [2, 4] yields
t = [1, 2, 3, 4, 5]. -/
theorem C6_merge_ordering (records newRecords : List LogRecord) :
    List.Perm (mergeWithRecords records newRecords)
      (records ++ newRecords) ∧
    List.Sorted createdLE (mergeWithRecords records newRecords) ∧
    (∀ t : ℚ, (mergeWithRecords records newRecords).filter
        (fun r => decide (r.created = t))
      = (records ++ newRecords).filter (fun r => decide (r.created = t))) ∧
    (mergeWithRecords [mkTimed 1, mkTimed 3, mkTimed 5]
        [mkTimed 2, mkTimed 4]).map LogRecord.created
      = [1, 2, 3, 4, 5] := by
  refine ⟨List.perm_insertionSort createdLE (records ++ newRecords),
    List.sorted_insertionSort createdLE (records ++ newRecords),
    fun t => filter_insertionSort_created t (records ++ newRecords), ?_⟩
  show (List.insertionSort createdLE
      [mkTimed 1, mkTimed 3, mkTimed 5, mkTimed 2, mkTimed 4]).map
      LogRecord.created = [1, 2, 3, 4, 5]
  norm_num [List.insertionSort, List.orderedInsert, createdLE, mkTimed]

/-! ## Control frames (listener.py, LogConnection.handle_internal_command) -/

/-- `b"!!cutelog!!"` (`LogConnection`'s sentinel starting every control
frame), as bytes. -/
def internalPrefixBytes : List Nat :=
  [33, 33, 99, 117, 116, 101, 108, 111, 103, 33, 33]

/-- Whether a byte is a UTF-8 continuation byte (`0x80..0xBF`). -/
def isContByte (b : Nat) : Bool :=
  128 ≤ b && b < 192

/-- `bytes.decode("utf-8")`: strict UTF-8 decoding of a byte list into
characters; `none` models `UnicodeDecodeError` (stray or missing
continuation bytes, overlong encodings, surrogates, out-of-range code
points, truncated sequences). -/
def utf8Decode : List Nat → Option (List Char)
  | [] => some []
  | b :: bs =>
    if b < 128 then
      (utf8Decode bs).map (fun cs => Char.ofNat b :: cs)
    else if b < 194 then Option.none
    else if b < 224 then
      match bs with
      | b1 :: bs2 =>
        if isContByte b1 then
          (utf8Decode bs2).map
            (fun cs => Char.ofNat ((b - 192) * 64 + (b1 - 128)) :: cs)
        else Option.none
      | [] => Option.none
    else if b < 240 then
      match bs with
      | b1 :: b2 :: bs3 =>
        if isContByte b1 && isContByte b2 then
          let cp := (b - 224) * 4096 + (b1 - 128) * 64 + (b2 - 128)
          if cp < 2048 then Option.none
          else if 55296 ≤ cp && cp ≤ 57343 then Option.none
          else (utf8Decode bs3).map (fun cs => Char.ofNat cp :: cs)
        else Option.none
      | _ => Option.none
    else if b < 245 then
      match bs with
      | b1 :: b2 :: b3 :: bs4 =>
        if isContByte b1 && isContByte b2 && isContByte b3 then
          let cp := (b - 240) * 262144 + (b1 - 128) * 4096 +
            (b2 - 128) * 64 + (b3 - 128)
          if cp < 65536 then Option.none
          else if cp > 1114111 then Option.none
          else (utf8Decode bs4).map (fun cs => Char.ofNat cp :: cs)
        else Option.none
      | _ => Option.none
    else Option.none

/-- `data.split("=", 1)` followed by unpacking into `cmd, value`: split at
the first `"="`; Python raises `ValueError` when there is none (modelled as
`none`; the exception is caught by the caller). -/
def splitEq : List Char → Option (List Char × List Char)
  | [] => Option.none
  | c :: rest =>
    if c = '=' then some ([], rest)
    else (splitEq rest).map (fun p => (c :: p.1, p.2))

/-- `LogConnection.handle_internal_command(data)`: strip the sentinel,
decode UTF-8 and split at the first `"="`; on either failure the error is
logged and the active deserializer is left unchanged.  For a
`format=<name>` command, switch the active deserializer to `<name>` iff it
is a registered key of `self.serializers` (always `pickle` and `json`,
plus `msgpack`/`cbor` when importable — `serializers` lists the registered
names); an unregistered name, or any other command, leaves the active
deserializer unchanged. -/
def handleInternalCommand (serializers : List String) (deserialize : String)
    (data : List Nat) : String :=
  match utf8Decode (data.drop internalPrefixBytes.length) with
  | Option.none => deserialize
  | some chars =>
    match splitEq chars with
    | Option.none => deserialize
    | some (cmd, value) =>
      if String.mk cmd = "format" then
        if String.mk value ∈ serializers then String.mk value
        else deserialize
      else deserialize

/-- The control-frame dispatch in `LogConnection.run`: a frame starting
with the sentinel goes to `handle_internal_command`, then the loop
`continue`s — nothing is handed to the codec and no record is emitted; any
other frame is passed on to deserialization.  Returns the new active
deserializer and the payload handed to the codec, if any. -/
def runHandleFrame (serializers : List String) (deserialize : String)
    (frame : List Nat) : String × Option (List Nat) :=
  if internalPrefixBytes.isPrefixOf frame then
    (handleInternalCommand serializers deserialize frame, Option.none)
  else (deserialize, some frame)

/-- C7: for every control frame (payload starting with `b"!!cutelog!!"`),
no record is emitted (nothing reaches the codec); if the command decodes
and splits as `format=<name>` with `<name>` registered, the connection's
active deserializer becomes `<name>` for subsequent frames; if `<name>` is
not registered, or the command payload is malformed (invalid UTF-8 or no
`"="`), the active deserializer is left unchanged. -/
theorem C7_control_frames (serializers : List String) (deserialize : String)
    (frame : List Nat)
    (h : internalPrefixBytes.isPrefixOf frame = true) :
    (runHandleFrame serializers deserialize frame).2 = Option.none ∧
    (∀ chars cmd value : List Char,
      utf8Decode (frame.drop internalPrefixBytes.length) = some chars →
      splitEq chars = some (cmd, value) → String.mk cmd = "format" →
      ((String.mk value ∈ serializers →
        (runHandleFrame serializers deserialize frame).1 = String.mk value) ∧
       (String.mk value ∉ serializers →
        (runHandleFrame serializers deserialize frame).1 = deserialize))) ∧
    (utf8Decode (frame.drop internalPrefixBytes.length) = Option.none →
      (runHandleFrame serializers deserialize frame).1 = deserialize) ∧
    (∀ chars : List Char,
      utf8Decode (frame.drop internalPrefixBytes.length) = some chars →
      splitEq chars = Option.none →
      (runHandleFrame serializers deserialize frame).1 = deserialize) := by
  unfold runHandleFrame
  rw [if_pos h]
  refine ⟨rfl, ?_, ?_, ?_⟩
  · intro chars cmd value hdec hsplit hcmd
    constructor
    · intro hmem
      simp [handleInternalCommand, hdec, hsplit, hcmd, hmem]
    · intro hmem
      simp [handleInternalCommand, hdec, hsplit, hcmd, hmem]
  · intro hdec
    simp [handleInternalCommand, hdec]
  · intro chars hdec hsplit
    simp [handleInternalCommand, hdec, hsplit]

/-- The bytes of the control frame `b"!!cutelog!!format=json"`. -/
def fmtJsonFrame : List Nat :=
  internalPrefixBytes ++
    [102, 111, 114, 109, 97, 116, 61, 106, 115, 111, 110]

/-- C7, witness: on a connection whose registered formats are `pickle` and
`json` and whose active deserializer is `pickle`, the control frame
`b"!!cutelog!!format=json"` emits no record and switches the active
deserializer to `json`. -/
theorem C7_control_frames_witness :
    (runHandleFrame ["pickle", "json"] "pickle" fmtJsonFrame).2
        = Option.none ∧
    (runHandleFrame ["pickle", "json"] "pickle" fmtJsonFrame).1 = "json" := by
  have h := C7_control_frames ["pickle", "json"] "pickle" fmtJsonFrame
    (by decide)
  refine ⟨h.1, ?_⟩
  have h2 := (h.2.1 "format=json".data "format".data "json".data
    (by decide) (by decide) (by decide)).1 (by decide)
  exact h2.trans (by decide)

/-! ## Server shutdown (listener.py, LogServer.close_server /
wait_connections_stopped)

A handler thread is abstracted by how it answers the bounded
`thread.wait(1500)`: it stops within the timeout, fails to stop in time
(`wait` returns `False`), or raises `RuntimeError` because the thread
object was already deleted.  The shutdown procedure is embedded as the
sequence of actions it performs.  `terminate` is the action the claimed
force-termination would be; it is part of the action alphabet so that the
claim can be stated, and the code never produces it. -/

inductive ThreadState where
  | stops : ThreadState
  | hangs : ThreadState
  | deleted : ThreadState
deriving DecidableEq, Repr

inductive ShutdownAction where
  | closeListener : ShutdownAction
  | requestInterruption : Nat → ShutdownAction
  | wait : Nat → ShutdownAction
  | logTimeout : Nat → ShutdownAction
  | logDeleted : Nat → ShutdownAction
  | terminate : Nat → ShutdownAction
deriving DecidableEq, Repr

/-- The `for thread in self.threads.copy()` loop of
`wait_connections_stopped`, from thread index `i`: one bounded
`thread.wait(1500)` per thread; when a wait times out, the failure is
logged (`"didn't stop in time, exiting"`) and the procedure returns
immediately, skipping the remaining threads; a deleted thread's
`RuntimeError` is caught, logged, and the loop continues. -/
def waitLoop : Nat → List ThreadState → List ShutdownAction
  | _, [] => []
  | i, t :: rest =>
    match t with
    | ThreadState.stops => ShutdownAction.wait i :: waitLoop (i + 1) rest
    | ThreadState.hangs =>
      [ShutdownAction.wait i, ShutdownAction.logTimeout i]
    | ThreadState.deleted =>
      ShutdownAction.wait i :: ShutdownAction.logDeleted i ::
        waitLoop (i + 1) rest

/-- `LogServer.close_server`: close the listening socket, request
interruption on every live handler thread, then wait for them in
`wait_connections_stopped`. -/
def closeServer (threads : List ThreadState) : List ShutdownAction :=
  ShutdownAction.closeListener ::
    ((List.range threads.length).map ShutdownAction.requestInterruption ++
      waitLoop 0 threads)

/-- Waits performed during shutdown (each bounded by the 1500 ms timeout). -/
def isWait : ShutdownAction → Bool
  | ShutdownAction.wait _ => true
  | _ => false

/-- C9, counterexample: with a single handler that does not stop within the
timeout, shutdown requests interruption, performs exactly one bounded wait
and logs the failure — but never force-terminates the handler, contrary to
the claim. -/
theorem C9_counterexample :
    ShutdownAction.requestInterruption 0 ∈ closeServer [ThreadState.hangs] ∧
    (closeServer [ThreadState.hangs]).countP isWait = 1 ∧
    ShutdownAction.logTimeout 0 ∈ closeServer [ThreadState.hangs] ∧
    ShutdownAction.terminate 0 ∉ closeServer [ThreadState.hangs] := by
  decide

theorem terminate_not_mem_waitLoop (i : Nat) :
    ∀ (ts : List ThreadState) (start : Nat),
      ShutdownAction.terminate i ∉ waitLoop start ts := by
  intro ts
  induction ts with
  | nil => intro start; simp [waitLoop]
  | cons t rest ih =>
    intro start
    cases t <;> simp [waitLoop] <;> exact ih (start + 1)

theorem countP_isWait_waitLoop :
    ∀ (ts : List ThreadState) (start : Nat),
      (waitLoop start ts).countP isWait ≤ ts.length := by
  intro ts
  induction ts with
  | nil => intro start; simp [waitLoop]
  | cons t rest ih =>
    intro start
    cases t with
    | stops =>
      have h := ih (start + 1)
      rw [show waitLoop start (ThreadState.stops :: rest)
          = ShutdownAction.wait start :: waitLoop (start + 1) rest from rfl,
        List.countP_cons_of_pos _ _ (by rfl), List.length_cons]
      omega
    | hangs =>
      have h1 : (waitLoop start (ThreadState.hangs :: rest)).countP isWait
          = 1 := rfl
      rw [h1, List.length_cons]
      omega
    | deleted =>
      have h := ih (start + 1)
      rw [show waitLoop start (ThreadState.deleted :: rest)
          = ShutdownAction.wait start :: ShutdownAction.logDeleted start ::
            waitLoop (start + 1) rest from rfl,
        List.countP_cons_of_pos _ _ (by rfl),
        List.countP_cons_of_neg _ _ (by simp [isWait]), List.length_cons]
      omega

theorem waitLoop_first_hang :
    ∀ (ts : List ThreadState) (start i : Nat),
      ts[i]? = some ThreadState.hangs →
      (∀ j : Nat, j < i → ts[j]? ≠ some ThreadState.hangs) →
      ShutdownAction.logTimeout (start + i) ∈ waitLoop start ts ∧
      ∀ k : Nat, start + i < k →
        ShutdownAction.wait k ∉ waitLoop start ts := by
  intro ts
  induction ts with
  | nil =>
    intro start i hi _
    simp at hi
  | cons t rest ih =>
    intro start i hi hfirst
    cases i with
    | zero =>
      rw [List.getElem?_cons_zero] at hi
      cases hi
      refine ⟨by simp [waitLoop], ?_⟩
      intro k hk
      simp only [waitLoop, List.mem_cons, List.mem_singleton]
      rintro (h | h | h)
      · cases h; omega
      · cases h
      · cases h
    | succ i0 =>
      have hne : t ≠ ThreadState.hangs := by
        intro heq
        exact hfirst 0 (Nat.succ_pos i0)
          (by rw [List.getElem?_cons_zero, heq])
      rw [List.getElem?_cons_succ] at hi
      have hfirst0 : ∀ j : Nat, j < i0 → rest[j]? ≠ some ThreadState.hangs := by
        intro j hj
        have := hfirst (j + 1) (by omega)
        rwa [List.getElem?_cons_succ] at this
      have hIH := ih (start + 1) i0 hi hfirst0
      have harith : start + 1 + i0 = start + (i0 + 1) := by omega
      cases t with
      | stops =>
        refine ⟨by simp only [waitLoop, List.mem_cons]; exact Or.inr (harith ▸ hIH.1), ?_⟩
        intro k hk
        simp only [waitLoop, List.mem_cons]
        rintro (h | h)
        · cases h; omega
        · exact hIH.2 k (by omega) h
      | hangs => exact absurd rfl hne
      | deleted =>
        refine ⟨by simp only [waitLoop, List.mem_cons]; exact Or.inr (Or.inr (harith ▸ hIH.1)), ?_⟩
        intro k hk
        simp only [waitLoop, List.mem_cons]
        rintro (h | h | h)
        · cases h; omega
        · cases h
        · exact hIH.2 k (by omega) h

/-- C9 (amended): when the server is closed it requests cancellation
(`requestInterruption`) on every live connection handler and performs at
most one bounded (1.5 s) wait per handler, so shutdown never waits
indefinitely; a handler that does not stop within its timeout has the
failure logged, after which the wait procedure returns immediately,
skipping the remaining handlers — it is *not* force-terminated (the code
performs no termination action on any handler). -/
theorem C9_shutdown (threads : List ThreadState) :
    (∀ i : Nat, i < threads.length →
      ShutdownAction.requestInterruption i ∈ closeServer threads) ∧
    (closeServer threads).countP isWait ≤ threads.length ∧
    (∀ i : Nat, ShutdownAction.terminate i ∉ closeServer threads) ∧
    (∀ i : Nat, threads[i]? = some ThreadState.hangs →
      (∀ j : Nat, j < i → threads[j]? ≠ some ThreadState.hangs) →
      ShutdownAction.logTimeout i ∈ closeServer threads ∧
      ∀ k : Nat, i < k → ShutdownAction.wait k ∉ closeServer threads) := by
  refine ⟨?_, ?_, ?_, ?_⟩
  · intro i hi
    unfold closeServer
    simp only [List.mem_cons, List.mem_append, List.mem_map, List.mem_range]
    exact Or.inr (Or.inl ⟨i, hi, rfl⟩)
  · unfold closeServer
    rw [List.countP_cons_of_neg _ _ (by simp [isWait]),
      List.countP_append]
    have h1 : ((List.range threads.length).map
        ShutdownAction.requestInterruption).countP isWait = 0 := by
      rw [List.countP_eq_zero]
      intro a ha
      rw [List.mem_map] at ha
      obtain ⟨j, _, rfl⟩ := ha
      simp [isWait]
    rw [h1]
    simpa using countP_isWait_waitLoop threads 0
  · intro i
    unfold closeServer
    simp only [List.mem_cons, List.mem_append, List.mem_map, List.mem_range]
    rintro (h | ⟨j, _, h⟩ | h)
    · cases h
    · cases h
    · exact terminate_not_mem_waitLoop i threads 0 h
  · intro i hi hfirst
    have h := waitLoop_first_hang threads 0 i hi hfirst
    rw [Nat.zero_add] at h
    constructor
    · unfold closeServer
      simp only [List.mem_cons, List.mem_append, List.mem_map,
        List.mem_range]
      exact Or.inr (Or.inr h.1)
    · intro k hk
      unfold closeServer
      simp only [List.mem_cons, List.mem_append, List.mem_map,
        List.mem_range]
      rintro (hmem | ⟨j, _, hmem⟩ | hmem)
      · cases hmem
      · cases hmem
      · exact h.2 k (by omega) hmem

end Cutelog
